import Mathlib

/-!
Verification of the git-paravendor vendor-ledger engine against its
natural-language specification.  The definitions below are a shallow
embedding of `src/main.rs`: commit ids are `Nat`, blob contents are
`String`, `BTreeMap` values are sorted association lists, fallible
operations return `Except Unit _`.
-/

namespace Paravendor

/-! ### Commit graph and ancestry

`CommitGraph.parents` gives the parent ids of each commit, modelling the
object store's commit graph.  `InHistory g t r` states that commit `t`
is reachable from commit `r` following parent links (including `t = r`),
which is exactly the set of commits a revwalk pushed at `r` visits —
the semantics of `is_commit_in_history` in `sync_dependency`.
-/

structure CommitGraph where
  parents : Nat → List Nat

inductive InHistory (g : CommitGraph) : Nat → Nat → Prop
  | refl (c : Nat) : InHistory g c c
  | step {t p c : Nat} : p ∈ g.parents c → InHistory g t p → InHistory g t c

/-- Git commit graphs are acyclic: mutual reachability implies equality. -/
def Acyclic (g : CommitGraph) : Prop :=
  ∀ a b, InHistory g a b → InHistory g b a → a = b

/-- The boolean oracle `hist t r` models the return value of
`is_commit_in_history(repo, target, reference)`: it is faithful when it
answers exactly the reachability question on the graph. -/
def FaithfulHist (g : CommitGraph) (hist : Nat → Nat → Bool) : Prop :=
  ∀ t r, hist t r = true ↔ InHistory g t r

/-- The pruning step of `sync_dependency` (src/main.rs lines 246-254):
keep commit `c` unless some entry with a different id has `c` in its
full history. -/
def prune (hist : Nat → Nat → Bool) (commits : List Nat) : List Nat :=
  commits.filter (fun c => !(commits.any (fun c2 => c2 != c && hist c c2)))

lemma mem_prune_iff (g : CommitGraph) (hist : Nat → Nat → Bool)
    (hf : FaithfulHist g hist) (commits : List Nat) (c : Nat) :
    c ∈ prune hist commits ↔
      c ∈ commits ∧ ¬ ∃ c2 ∈ commits, c2 ≠ c ∧ InHistory g c c2 := by
  unfold prune
  rw [List.mem_filter]
  constructor
  · rintro ⟨hc, hpred⟩
    refine ⟨hc, ?_⟩
    rintro ⟨c2, hc2, hne, hhist⟩
    have : commits.any (fun c2 => c2 != c && hist c c2) = true :=
      List.any_eq_true.mpr ⟨c2, hc2, by
        simp [bne_iff_ne, hne, (hf c c2).mpr hhist]⟩
    simp [this] at hpred
  · rintro ⟨hc, hno⟩
    refine ⟨hc, ?_⟩
    simp only [Bool.not_eq_true', List.any_eq_false]
    intro c2 hc2
    simp only [Bool.and_eq_true, bne_iff_ne, not_and]
    intro hne
    simp only [Bool.not_eq_true]
    cases hcase : hist c c2 with
    | false => rfl
    | true => exact absurd ⟨c2, hc2, hne, (hf c c2).mp hcase⟩ hno

lemma count_filter_eq (p : Nat → Bool) (l : List Nat) (c : Nat) :
    (l.filter p).count c = if p c then l.count c else 0 := by
  induction l with
  | nil => simp
  | cons a t ih =>
    by_cases hac : a = c
    · subst hac
      cases hp : p a <;> simp [List.filter_cons, hp, ih, List.count_cons]
    · cases hp : p a <;>
        simp [List.filter_cons, hp, ih, List.count_cons, hac]

/-! Concrete two-commit graph used as a witness: commit 0 is the sole
parent of commit 1. -/

def g01 : CommitGraph := ⟨fun n => if n = 1 then [0] else []⟩

def hist01 : Nat → Nat → Bool := fun t r => t == r || (t == 0 && r == 1)

lemma inHistory_g01 (t r : Nat) :
    InHistory g01 t r ↔ (t = r ∨ (t = 0 ∧ r = 1)) := by
  constructor
  · intro h
    induction h with
    | refl => exact Or.inl rfl
    | @step p c hp hrec ih =>
      by_cases hc : c = 1
      · subst hc
        simp [g01] at hp
        subst hp
        rcases ih with h0 | ⟨h0, _⟩
        · exact Or.inr ⟨h0, rfl⟩
        · exact Or.inr ⟨h0, rfl⟩
      · simp [g01, hc] at hp
  · rintro (rfl | ⟨rfl, rfl⟩)
    · exact InHistory.refl _
    · exact InHistory.step (p := 0) (by simp [g01]) (InHistory.refl 0)

lemma faithful01 : FaithfulHist g01 hist01 := by
  intro t r
  rw [inHistory_g01]
  simp [hist01]

lemma acyclic01 : Acyclic g01 := by
  intro a b hab hba
  rw [inHistory_g01] at hab hba
  rcases hab with rfl | ⟨rfl, rfl⟩
  · rfl
  · rcases hba with h | ⟨h, -⟩ <;> exact absurd h (by decide)

/-! Concrete one-commit (parentless) graph: ancestry is reflexive only. -/

def gA : CommitGraph := ⟨fun _ => []⟩

def histA : Nat → Nat → Bool := fun t r => t == r

lemma inHistory_gA (t r : Nat) : InHistory gA t r ↔ t = r := by
  constructor
  · intro h
    induction h with
    | refl => rfl
    | step hp _ _ => simp [gA] at hp
  · rintro rfl
    exact InHistory.refl _

lemma faithfulA : FaithfulHist gA histA := by
  intro t r
  rw [inHistory_gA]
  simp [histA]

/-- C1: the pruning step excludes a commit `c` from its result iff some
other input entry with a distinct id has `c` in its full-history
ancestry; in particular an ancestor `A` of `B` gives `prune [A, B] = [B]`,
an ancestry-free input is returned unchanged, and membership in the
result depends only on membership in the input, not on its order. -/
theorem prune_ancestry_spec (g : CommitGraph) (hist : Nat → Nat → Bool)
    (hf : FaithfulHist g hist) (hacyc : Acyclic g) :
    (∀ commits c, c ∈ commits →
        (c ∉ prune hist commits ↔ ∃ c2 ∈ commits, c2 ≠ c ∧ InHistory g c c2))
    ∧ (∀ A B, A ≠ B → InHistory g A B → prune hist [A, B] = [B])
    ∧ (∀ S, (∀ a ∈ S, ∀ b ∈ S, a ≠ b → ¬ InHistory g a b) →
        prune hist S = S)
    ∧ (∀ S T, (∀ x, x ∈ S ↔ x ∈ T) →
        ∀ x, x ∈ prune hist S ↔ x ∈ prune hist T) := by
  refine ⟨?_, ?_, ?_, ?_⟩
  · intro commits c hc
    rw [mem_prune_iff g hist hf]
    constructor
    · intro h
      by_contra hno
      exact h ⟨hc, hno⟩
    · rintro hex ⟨-, hno⟩
      exact hno hex
  · intro A B hne hAB
    have hABtrue : hist A B = true := (hf A B).mpr hAB
    have hBAfalse : hist B A = false := by
      cases h : hist B A with
      | false => rfl
      | true => exact absurd (hacyc A B hAB ((hf B A).mp h)) hne
    simp [prune, List.filter_cons, hABtrue, hBAfalse, bne_iff_ne,
      Ne.symm hne]
  · intro S hS
    unfold prune
    rw [List.filter_eq_self]
    intro a ha
    simp only [Bool.not_eq_eq_eq_not, Bool.not_true, List.any_eq_false]
    intro c2 hc2
    simp only [Bool.and_eq_true, bne_iff_ne, not_and]
    intro hne
    simp only [Bool.not_eq_true]
    cases hcase : hist a c2 with
    | false => rfl
    | true =>
      exact absurd ((hf a c2).mp hcase) (hS a ha c2 hc2 (Ne.symm hne))
  · intro S T hmem x
    rw [mem_prune_iff g hist hf, mem_prune_iff g hist hf]
    simp only [hmem]

/-- Witness for C1: in the graph where 0 is the parent of 1, pruning
the fetched heads `[0, 1]` keeps only the descendant 1. -/
theorem prune_ancestry_spec_witness : prune hist01 [0, 1] = [1] :=
  (prune_ancestry_spec g01 hist01 faithful01 acyclic01).2.1 0 1
    (by decide) (InHistory.step (p := 0) (by simp [g01]) (InHistory.refl 0))

/-- C9 counterexample: with the faithful ancestry oracle of a
parentless commit 0, pruning the duplicate input `[0, 0]` (two remote
refs advertising the same commit) returns `[0, 0]`, which contains the
commit id twice — the pruned result does not contain each id at most
once. -/
theorem prune_duplicates_counterexample :
    FaithfulHist gA histA ∧ prune histA [0, 0] = [0, 0]
      ∧ ¬ (prune histA [0, 0]).Nodup :=
  ⟨faithfulA, by decide, by decide⟩

/-- C9 amended: duplicate entries with the same commit id never prune
one another (the distinctness test compares ids), and every occurrence
of a kept id is retained, so the result holds a commit id exactly as
often as the input does whenever the id is kept, and zero times when it
is excluded; pruning an empty input yields an empty output. -/
theorem prune_duplicates_amended (hist : Nat → Nat → Bool) :
    prune hist [] = []
    ∧ ∀ commits c, (prune hist commits).count c =
        if commits.any (fun c2 => c2 != c && hist c c2) then 0
        else commits.count c := by
  refine ⟨rfl, ?_⟩
  intro commits c
  unfold prune
  rw [count_filter_eq]
  cases h : commits.any (fun c2 => c2 != c && hist c c2) <;> simp [h]

/-! ### Manifest data model

`BTreeMap<String, _>` is embedded as an association list sorted by key
(`SortedKeys` is the B-tree invariant; insertion keeps it).  `Config`,
`Dependency` and `Head` mirror the structs of src/main.rs lines 12-36.
-/

def btmGet {α : Type} : List (String × α) → String → Option α
  | [], _ => none
  | (k, v) :: rest, key => if key = k then some v else btmGet rest key

def btmInsert {α : Type} : List (String × α) → String → α → List (String × α)
  | [], key, v => [(key, v)]
  | (k, w) :: rest, key, v =>
    if key < k then (key, v) :: (k, w) :: rest
    else if key = k then (key, v) :: rest
    else (k, w) :: btmInsert rest key v

def SortedKeys {α : Type} (l : List (String × α)) : Prop :=
  l.Pairwise (fun a b => a.1 < b.1)

structure Head where
  commit : String
deriving DecidableEq

structure Dependency where
  url : String
  heads : List (String × Head)
deriving DecidableEq

structure Config where
  version : String
  dependencies : List (String × Dependency)
deriving DecidableEq

/-- `Config::default()`: schema version "1.1", no dependencies. -/
def Config.default : Config := { version := "1.1", dependencies := [] }

/-! ### Manifest codec

Model of `toml::to_string_pretty` applied to `Config`: a function of
the value, emitting tables in stored (sorted) key order. -/

def tomlQuote (s : String) : String := "\"" ++ s ++ "\""

def encodeHeadTable (dep ref : String) (h : Head) : String :=
  "[dependencies." ++ dep ++ ".heads." ++ tomlQuote ref ++ "]\ncommit = "
    ++ tomlQuote h.commit ++ "\n"

def encodeDependency (name : String) (d : Dependency) : String :=
  "[dependencies." ++ name ++ "]\nurl = " ++ tomlQuote d.url ++ "\n"
    ++ String.join (d.heads.map (fun p => encodeHeadTable name p.1 p.2))

def encodeConfig (c : Config) : String :=
  "version = " ++ tomlQuote c.version ++ "\n"
    ++ String.join (c.dependencies.map (fun p => encodeDependency p.1 p.2))

/-! ### Sorted association lists are canonical

Two sorted maps with the same lookups are the same list; this is what
makes the codec's output depend only on the manifest's logical content.
-/

lemma btmGet_eq_none_of_lt {α : Type} (l : List (String × α)) (key : String)
    (h : ∀ p ∈ l, key < p.1) : btmGet l key = none := by
  induction l with
  | nil => rfl
  | cons a t ih =>
    have hne : key ≠ a.1 := ne_of_lt (h a (List.mem_cons_self a t))
    simp only [btmGet]
    rw [if_neg hne]
    exact ih (fun p hp => h p (List.mem_cons_of_mem a hp))

lemma btmGet_mem {α : Type} {l : List (String × α)} {key : String} {v : α}
    (h : btmGet l key = some v) : (key, v) ∈ l := by
  induction l with
  | nil => simp [btmGet] at h
  | cons a t ih =>
    obtain ⟨k, w⟩ := a
    simp only [btmGet] at h
    by_cases hk : key = k
    · rw [if_pos hk] at h
      injection h with hv
      rw [hk, ← hv]
      exact List.mem_cons_self _ _
    · rw [if_neg hk] at h
      exact List.mem_cons_of_mem _ (ih h)

lemma sorted_btm_ext {α : Type} (l1 l2 : List (String × α))
    (h1 : SortedKeys l1) (h2 : SortedKeys l2)
    (h : ∀ k, btmGet l1 k = btmGet l2 k) : l1 = l2 := by
  induction l1 generalizing l2 with
  | nil =>
    cases l2 with
    | nil => rfl
    | cons b t2 =>
      obtain ⟨kb, vb⟩ := b
      have hb := h kb
      simp [btmGet] at hb
  | cons a t1 ih =>
    obtain ⟨ka, va⟩ := a
    cases l2 with
    | nil =>
      have ha := h ka
      simp [btmGet] at ha
    | cons b t2 =>
      obtain ⟨kb, vb⟩ := b
      have hpair1 := List.pairwise_cons.mp h1
      have hpair2 := List.pairwise_cons.mp h2
      rcases lt_trichotomy ka kb with hlt | heq | hgt
      · exfalso
        have ha := h ka
        simp [btmGet, ne_of_lt hlt] at ha
        rw [btmGet_eq_none_of_lt t2 ka
          (fun p hp => lt_trans hlt (hpair2.1 p hp))] at ha
        exact Option.noConfusion ha
      · subst heq
        have hval := h ka
        simp [btmGet] at hval
        have htail : ∀ k, btmGet t1 k = btmGet t2 k := by
          intro k
          by_cases hk : k = ka
          · subst hk
            rw [btmGet_eq_none_of_lt t1 k (fun p hp => hpair1.1 p hp),
              btmGet_eq_none_of_lt t2 k (fun p hp => hpair2.1 p hp)]
          · have hmain := h k
            simp only [btmGet, if_neg hk] at hmain
            exact hmain
        have ht := ih t2 hpair1.2 hpair2.2 htail
        rw [hval, ht]
      · exfalso
        have hb := h kb
        simp [btmGet, ne_of_lt hgt] at hb
        rw [btmGet_eq_none_of_lt t1 kb
          (fun p hp => lt_trans hgt (hpair1.1 p hp))] at hb
        exact Option.noConfusion hb

/-! ### Logical equality of manifests -/

def optRel {α : Type} (R : α → α → Prop) : Option α → Option α → Prop
  | some a, some b => R a b
  | none, none => True
  | _, _ => False

def DepEquiv (d1 d2 : Dependency) : Prop :=
  d1.url = d2.url ∧ ∀ r, btmGet d1.heads r = btmGet d2.heads r

def DepWF (d : Dependency) : Prop := SortedKeys d.heads

def ConfigWF (c : Config) : Prop :=
  SortedKeys c.dependencies ∧ ∀ p ∈ c.dependencies, DepWF p.2

def ConfigEquiv (c1 c2 : Config) : Prop :=
  c1.version = c2.version ∧
    ∀ k, optRel DepEquiv (btmGet c1.dependencies k) (btmGet c2.dependencies k)

lemma depEquiv_refl (d : Dependency) : DepEquiv d d := ⟨rfl, fun _ => rfl⟩

lemma optRel_refl {α : Type} (R : α → α → Prop) (hrefl : ∀ a, R a a)
    (o : Option α) : optRel R o o := by
  cases o with
  | none => trivial
  | some a => exact hrefl a

lemma configEquiv_refl (c : Config) : ConfigEquiv c c :=
  ⟨rfl, fun k => optRel_refl DepEquiv depEquiv_refl (btmGet c.dependencies k)⟩

/-- C8: the codec is deterministic: two well-formed manifests with the
same logical content (same version, same dependency map, with each
dependency having the same url and head map) serialize to byte-identical
output, because the sorted map representation is canonical. -/
theorem encode_deterministic (c1 c2 : Config)
    (hwf1 : ConfigWF c1) (hwf2 : ConfigWF c2) (heq : ConfigEquiv c1 c2) :
    encodeConfig c1 = encodeConfig c2 := by
  suffices hcc : c1 = c2 by rw [hcc]
  obtain ⟨hver, hdeps⟩ := heq
  have hlookup : ∀ k, btmGet c1.dependencies k = btmGet c2.dependencies k := by
    intro k
    have hk := hdeps k
    cases hg1 : btmGet c1.dependencies k with
    | none =>
      cases hg2 : btmGet c2.dependencies k with
      | none => rfl
      | some d2 => rw [hg1, hg2] at hk; exact absurd hk (by simp [optRel])
    | some d1 =>
      cases hg2 : btmGet c2.dependencies k with
      | none => rw [hg1, hg2] at hk; exact absurd hk (by simp [optRel])
      | some d2 =>
        rw [hg1, hg2] at hk
        have hde : DepEquiv d1 d2 := hk
        have hd1 : DepWF d1 := hwf1.2 (k, d1) (btmGet_mem hg1)
        have hd2 : DepWF d2 := hwf2.2 (k, d2) (btmGet_mem hg2)
        have hheads : d1.heads = d2.heads :=
          sorted_btm_ext d1.heads d2.heads hd1 hd2 hde.2
        obtain ⟨u1, hs1⟩ := d1
        obtain ⟨u2, hs2⟩ := d2
        simp only at hheads
        have hurl := hde.1
        simp only at hurl
        rw [hurl, hheads]
  have hdd : c1.dependencies = c2.dependencies :=
    sorted_btm_ext c1.dependencies c2.dependencies hwf1.1 hwf2.1 hlookup
  obtain ⟨v1, d1⟩ := c1
  obtain ⟨v2, d2⟩ := c2
  simp only at hver hdd
  rw [hver, hdd]

/-- A concrete two-dependency manifest for witnessing. -/
def cW : Config :=
  { version := "1.1",
    dependencies :=
      [("alpha", { url := "https://a.example/repo",
                   heads := [("HEAD", ⟨"aaa"⟩),
                             ("refs/heads/master", ⟨"aaa"⟩)] }),
       ("beta", { url := "https://b.example/repo",
                  heads := [("refs/heads/main", ⟨"bbb"⟩)] })] }

lemma cW_wf : ConfigWF cW := by
  constructor
  · show List.Pairwise _ _
    refine List.pairwise_cons.mpr ⟨?_, List.pairwise_singleton _ _⟩
    intro b hb
    rw [List.mem_singleton] at hb
    subst hb
    exact String.lt_iff_toList_lt.mpr (by decide)
  · intro p hp
    simp only [cW, List.mem_cons, List.not_mem_nil, or_false] at hp
    rcases hp with h | h
    · subst h
      show List.Pairwise _ _
      refine List.pairwise_cons.mpr ⟨?_, List.pairwise_singleton _ _⟩
      intro b hb
      rw [List.mem_singleton] at hb
      subst hb
      exact String.lt_iff_toList_lt.mpr (by decide)
    · subst h
      exact List.pairwise_singleton _ _

/-- Witness for C8: the determinism theorem applies to the concrete
well-formed manifest `cW`. -/
theorem encode_deterministic_witness : encodeConfig cW = encodeConfig cW :=
  encode_deterministic cW cW cW_wf cW_wf (configEquiv_refl cW)

/-! ### Ledger model

A ledger commit records its parent ids, its tree (a map from entry name
to blob content; blobs are content-addressed so the content stands for
the blob id), and its message.  `LedgerSt` is the observable state of
the `paravendor` branch: the tip commit id, the tip's tree, and the
manifest decoded from the tip's `config` blob (what `ensure_initialized`
hands to `Add`/`Sync`).
-/

structure GCommit where
  parents : List Nat
  tree : String → Option String
  message : String

structure LedgerSt where
  tip : Nat
  tipTree : String → Option String
  config : Config

/-- Result of `sync_dependency`: the advertised heads and the pruned
head commits (already reduced by `prune`). `Except.error` models a
fetch failure. -/
structure FetchRes where
  heads : List (String × Head)
  pruned : List Nat
deriving DecidableEq

/-- The new ledger commit built by `Add`/`Sync` (src/main.rs lines
336-351 and 384-399): first parent is the previous tip, remaining
parents are the pruned heads; the tree is the tip's tree with the
`config` entry upserted to the newly encoded manifest. -/
def mkLedgerCommit (st : LedgerSt) (newConfig : Config) (pruned : List Nat)
    (msg : String) : GCommit :=
  { parents := st.tip :: pruned,
    tree := fun k => if k = "config" then some (encodeConfig newConfig)
      else st.tipTree k,
    message := msg }

/-- The per-dependency loop of `Command::Sync` (src/main.rs lines
357-375): walk the dependency map in order, fetch each effective
dependency (aborting on the first fetch failure), replace its heads,
accumulate pruned commits and the names of changed dependencies. -/
def syncAll (fetch : String → Except Unit FetchRes) (names : List String) :
    List (String × Dependency) →
      Except Unit (List (String × Dependency) × List Nat × List String)
  | [] => Except.ok ([], [], [])
  | (n, d) :: rest =>
    if names.isEmpty || names.contains n then
      match fetch d.url with
      | Except.error e => Except.error e
      | Except.ok fr =>
        match syncAll fetch names rest with
        | Except.error e => Except.error e
        | Except.ok (rest2, pr, ch) =>
          Except.ok ((n, { d with heads := fr.heads }) :: rest2,
            fr.pruned ++ pr,
            (if d.heads ≠ fr.heads then [n] else []) ++ ch)
    else
      match syncAll fetch names rest with
      | Except.error e => Except.error e
      | Except.ok (rest2, pr, ch) => Except.ok ((n, d) :: rest2, pr, ch)

/-- `Command::Sync` (src/main.rs lines 353-401) at the ledger level:
returns the resulting branch state, the list of (id, commit) pairs
written to the ledger, and the command outcome.  `freshId` is the
content hash git would assign to the new commit. -/
def syncCommand (fetch : String → Except Unit FetchRes) (names : List String)
    (st : LedgerSt) (freshId : Nat) :
    LedgerSt × List (Nat × GCommit) × Except Unit Unit :=
  match syncAll fetch names st.config.dependencies with
  | Except.error e => (st, [], Except.error e)
  | Except.ok (newDeps, pruned, changed) =>
    let newConfig : Config := { st.config with dependencies := newDeps }
    if st.config = newConfig then
      (st, [], Except.ok ())
    else
      let c := mkLedgerCommit st newConfig pruned
        ("Sync: " ++ String.intercalate ", " changed)
      ({ tip := freshId, tipTree := c.tree, config := newConfig },
        [(freshId, c)], Except.ok ())

/-- `Command::Add` (src/main.rs lines 315-352) at the ledger level:
fails if the name is already present, fetches, inserts the dependency
into the manifest and always writes one new ledger commit. -/
def addCommand (fetch : String → Except Unit FetchRes) (name url : String)
    (st : LedgerSt) (freshId : Nat) :
    LedgerSt × List (Nat × GCommit) × Except Unit Unit :=
  if (btmGet st.config.dependencies name).isSome then
    (st, [], Except.error ())
  else
    match fetch url with
    | Except.error e => (st, [], Except.error e)
    | Except.ok fr =>
      let dep : Dependency := { url := url, heads := fr.heads }
      let newConfig : Config :=
        { st.config with
          dependencies := btmInsert st.config.dependencies name dep }
      let c := mkLedgerCommit st newConfig fr.pruned
        ("Add " ++ name ++ " from " ++ url)
      ({ tip := freshId, tipTree := c.tree, config := newConfig },
        [(freshId, c)], Except.ok ())

lemma syncAll_nochange (fetch : String → Except Unit FetchRes)
    (names : List String) (deps : List (String × Dependency))
    (h : ∀ n d, (n, d) ∈ deps → (names.isEmpty || names.contains n) = true →
      ∃ pr, fetch d.url = Except.ok ⟨d.heads, pr⟩) :
    ∃ pr, syncAll fetch names deps = Except.ok (deps, pr, []) := by
  induction deps with
  | nil => exact ⟨[], rfl⟩
  | cons a rest ih =>
    obtain ⟨n, d⟩ := a
    obtain ⟨pr2, hrest⟩ :=
      ih (fun n2 d2 hm he => h n2 d2 (List.mem_cons_of_mem _ hm) he)
    by_cases heff : (names.isEmpty || names.contains n) = true
    · obtain ⟨pr1, hfetch⟩ := h n d (List.mem_cons_self _ _) heff
      refine ⟨pr1 ++ pr2, ?_⟩
      simp only [syncAll, heff, if_true, hfetch, hrest]
      simp
    · refine ⟨pr2, ?_⟩
      have heff2 : (names.isEmpty || names.contains n) = false :=
        Bool.not_eq_true _ ▸ Bool.of_not_eq_true heff
      simp only [syncAll, heff2, Bool.false_eq_true, if_false, hrest]

lemma syncAll_error (fetch : String → Except Unit FetchRes)
    (names : List String) (deps : List (String × Dependency))
    (h : ∃ n d, (n, d) ∈ deps ∧ (names.isEmpty || names.contains n) = true ∧
      fetch d.url = Except.error ()) :
    syncAll fetch names deps = Except.error () := by
  induction deps with
  | nil =>
    obtain ⟨n, d, hm, -, -⟩ := h
    simp at hm
  | cons a rest ih =>
    obtain ⟨n, d, hm, heff, herr⟩ := h
    obtain ⟨n0, d0⟩ := a
    rcases List.mem_cons.mp hm with heq | hmr
    · obtain ⟨rfl, rfl⟩ := Prod.mk.injEq .. ▸ heq
      simp only [syncAll, heff, if_true, herr]
    · by_cases heff0 : (names.isEmpty || names.contains n0) = true
      · simp only [syncAll, heff0, if_true]
        cases hf : fetch d0.url with
        | error e => rfl
        | ok fr => rw [ih ⟨n, d, hmr, heff, herr⟩]
      · have heff2 : (names.isEmpty || names.contains n0) = false :=
          Bool.not_eq_true _ ▸ Bool.of_not_eq_true heff0
        simp only [syncAll, heff2, Bool.false_eq_true, if_false,
          ih ⟨n, d, hmr, heff, herr⟩]

/-- C2: every ledger commit created by `Add` or by `Sync` has the
previous ledger tip as first parent, the pruner-supplied commits (in
order) as the remaining parents, and a tree whose `config` entry is the
newly encoded manifest while every other entry is the tip tree's,
unchanged. -/
theorem ledger_commit_parents_tree :
    (∀ fetch name url st freshId fr i c,
        fetch url = Except.ok fr →
        (i, c) ∈ (addCommand fetch name url st freshId).2.1 →
        c.parents = st.tip :: fr.pruned
          ∧ c.tree "config" =
              some (encodeConfig (addCommand fetch name url st freshId).1.config)
          ∧ ∀ k, k ≠ "config" → c.tree k = st.tipTree k)
    ∧ (∀ fetch names st freshId nd pr ch i c,
        syncAll fetch names st.config.dependencies = Except.ok (nd, pr, ch) →
        (i, c) ∈ (syncCommand fetch names st freshId).2.1 →
        c.parents = st.tip :: pr
          ∧ c.tree "config" =
              some (encodeConfig { st.config with dependencies := nd })
          ∧ ∀ k, k ≠ "config" → c.tree k = st.tipTree k) := by
  constructor
  · intro fetch name url st freshId fr i c hf hmem
    by_cases hdup : (btmGet st.config.dependencies name).isSome
    · simp only [addCommand, hdup, if_true] at hmem
      simp at hmem
    · simp only [addCommand, hdup, Bool.false_eq_true, if_false, hf] at hmem ⊢
      rw [List.mem_singleton] at hmem
      obtain ⟨-, rfl⟩ := Prod.mk.injEq .. ▸ hmem
      refine ⟨rfl, ?_, ?_⟩
      · simp [mkLedgerCommit]
      · intro k hk
        simp [mkLedgerCommit, hk]
  · intro fetch names st freshId nd pr ch i c hall hmem
    simp only [syncCommand, hall] at hmem
    by_cases hc : st.config = { st.config with dependencies := nd }
    · rw [if_pos hc] at hmem
      simp at hmem
    · rw [if_neg hc] at hmem
      rw [List.mem_singleton] at hmem
      obtain ⟨-, rfl⟩ := Prod.mk.injEq .. ▸ hmem
      refine ⟨rfl, ?_, ?_⟩
      · simp [mkLedgerCommit]
      · intro k hk
        simp [mkLedgerCommit, hk]

/-! Concrete fixtures for the `Sync`/`Add` witnesses. -/

def depW : Dependency :=
  { url := "u", heads := [("refs/heads/master", ⟨"abc"⟩)] }

def stW : LedgerSt :=
  { tip := 10,
    tipTree := fun k => if k = "config" then some "blob0" else none,
    config := { version := "1.1", dependencies := [("dep", depW)] } }

def fetchW : String → Except Unit FetchRes := fun u =>
  if u = "u" then Except.ok ⟨[("refs/heads/master", ⟨"abc"⟩)], [5]⟩
  else Except.error ()

def cfgAddW : Config := (addCommand fetchW "newdep" "u" stW 99).1.config

def cAddW : GCommit := mkLedgerCommit stW cfgAddW [5] "Add newdep from u"

/-- Witness for C2: the concrete `Add` of "newdep" writes one commit
with first parent the old tip 10, second parent the pruned head 5, the
new manifest at `config`, and any other entry as in the old tip tree. -/
theorem ledger_commit_parents_tree_witness :
    cAddW.parents = [10, 5]
      ∧ cAddW.tree "config" = some (encodeConfig cfgAddW)
      ∧ cAddW.tree "other" = none := by
  obtain ⟨hp, ht, ho⟩ := ledger_commit_parents_tree.1 fetchW "newdep" "u" stW 99
    ⟨[("refs/heads/master", ⟨"abc"⟩)], [5]⟩ 99 cAddW rfl
    (List.mem_singleton.mpr rfl)
  refine ⟨hp, ht, ?_⟩
  rw [ho "other" (by decide)]
  rfl

/-- C3: a `Sync` whose every effective dependency's fetch succeeds and
advertises exactly the heads already recorded in the manifest performs
no ledger write: the branch state (tip included) is returned unchanged
and no commit is created.  In particular a second `Sync` directly after
a first one with no upstream change is a no-op. -/
theorem sync_idempotent (fetch : String → Except Unit FetchRes)
    (names : List String) (st : LedgerSt) (freshId : Nat)
    (h : ∀ n d, (n, d) ∈ st.config.dependencies →
      (names.isEmpty || names.contains n) = true →
      ∃ pr, fetch d.url = Except.ok ⟨d.heads, pr⟩) :
    syncCommand fetch names st freshId = (st, [], Except.ok ()) := by
  obtain ⟨pr, hall⟩ := syncAll_nochange fetch names st.config.dependencies h
  simp only [syncCommand, hall]
  simp only [if_true]

/-- Witness for C3: re-syncing the one-dependency ledger `stW` against
a remote advertising the already-recorded heads leaves the tip at 10
and writes nothing. -/
theorem sync_idempotent_witness :
    syncCommand fetchW [] stW 42 = (stW, [], Except.ok ()) := by
  apply sync_idempotent
  intro n d hm _
  rw [show stW.config.dependencies = [("dep", depW)] from rfl,
    List.mem_singleton] at hm
  obtain ⟨rfl, rfl⟩ := Prod.mk.injEq .. ▸ hm
  exact ⟨[5], rfl⟩

/-- C4 counterexample: syncing `stW` against an unchanged remote yields
a nonempty pruned parent list `[5]`, yet the code performs no ledger
write (the manifest is unchanged), while the claim requires a new
commit whenever the extra-parents set is nonempty. -/
theorem sync_noop_counterexample :
    syncAll fetchW [] stW.config.dependencies
        = Except.ok (stW.config.dependencies, [5], [])
      ∧ ([5] : List Nat) ≠ []
      ∧ (syncCommand fetchW [] stW 42).2.1 = []
      ∧ (syncCommand fetchW [] stW 42).1.tip = stW.tip :=
  ⟨rfl, by decide, rfl, rfl⟩

/-- C4 corrected: the ledger update is a no-op exactly when the updated
manifest equals the manifest decoded from the current ledger tip (by
codec determinism, exactly when their encodings are byte-identical);
whether the pruner supplied extra parents plays no role, and on a no-op
the branch state is untouched. -/
theorem sync_noop_amended (fetch : String → Except Unit FetchRes)
    (names : List String) (st : LedgerSt) (freshId : Nat)
    (nd : List (String × Dependency)) (pr : List Nat) (ch : List String)
    (hok : syncAll fetch names st.config.dependencies
      = Except.ok (nd, pr, ch)) :
    ((syncCommand fetch names st freshId).2.1 = [] ↔
      st.config = { st.config with dependencies := nd })
    ∧ ((syncCommand fetch names st freshId).2.1 = [] →
      (syncCommand fetch names st freshId).1 = st) := by
  simp only [syncCommand, hok]
  by_cases hc : st.config = { st.config with dependencies := nd }
  · rw [if_pos hc]
    exact ⟨⟨fun _ => hc, fun _ => rfl⟩, fun _ => rfl⟩
  · rw [if_neg hc]
    refine ⟨⟨fun hlist => absurd hlist (by simp),
      fun hcfg => absurd hcfg hc⟩, fun hlist => absurd hlist (by simp)⟩

/-- Witness for C4 (corrected): at the concrete unchanged-remote sync
of `stW`, the no-op condition is exactly the manifest equality. -/
theorem sync_noop_amended_witness :
    ((syncCommand fetchW [] stW 42).2.1 = [] ↔
      stW.config = { stW.config with
        dependencies := stW.config.dependencies })
    ∧ ((syncCommand fetchW [] stW 42).2.1 = [] →
      (syncCommand fetchW [] stW 42).1 = stW) :=
  sync_noop_amended fetchW [] stW 42 stW.config.dependencies [5] [] rfl

/-- C5: if the fetch of any effective dependency fails, `Sync` aborts
with an error before any ledger write — the returned branch state is
the input state (same tip) and no commit is written; moreover a `Sync`
invocation writes at most one ledger commit, covering all requested
dependencies together. -/
theorem sync_atomic (fetch : String → Except Unit FetchRes)
    (names : List String) (st : LedgerSt) (freshId : Nat) :
    ((∃ n d, (n, d) ∈ st.config.dependencies ∧
        (names.isEmpty || names.contains n) = true ∧
        fetch d.url = Except.error ()) →
      syncCommand fetch names st freshId = (st, [], Except.error ()))
    ∧ (syncCommand fetch names st freshId).2.1.length ≤ 1 := by
  constructor
  · intro h
    simp only [syncCommand, syncAll_error fetch names _ h]
  · simp only [syncCommand]
    split
    · simp
    · split
      · simp
      · simp

/-! A three-dependency ledger whose second dependency's remote fails. -/

def dep3a : Dependency :=
  { url := "u1", heads := [("refs/heads/master", ⟨"a1"⟩)] }

def dep3b : Dependency :=
  { url := "u2", heads := [("refs/heads/master", ⟨"b1"⟩)] }

def dep3c : Dependency :=
  { url := "u3", heads := [("refs/heads/master", ⟨"c1"⟩)] }

def st3 : LedgerSt :=
  { tip := 11,
    tipTree := fun k => if k = "config" then some "blob3" else none,
    config := { version := "1.1",
                dependencies := [("a", dep3a), ("b", dep3b), ("c", dep3c)] } }

def fetch3 : String → Except Unit FetchRes := fun u =>
  if u = "u2" then Except.error ()
  else Except.ok ⟨[("refs/heads/master", ⟨"new"⟩)], [7]⟩

/-- Witness for C5: with dependency 2-of-3 failing to fetch, the whole
`Sync` errors out and the ledger state (tip 11) is unchanged. -/
theorem sync_atomic_witness :
    syncCommand fetch3 [] st3 43 = (st3, [], Except.error ()) :=
  (sync_atomic fetch3 [] st3 43).1 ⟨"b", dep3b, by decide, by decide, rfl⟩

/-! ### Reference resolver

`Command::ShowRef` (src/main.rs lines 421-446): four lookups in the
dependency's heads map, first match wins. -/

def resolveReference (dep : Dependency) (reference : String) :
    Except Unit String :=
  match btmGet dep.heads reference with
  | some h => Except.ok h.commit
  | none =>
    match btmGet dep.heads ("refs/heads/" ++ reference) with
    | some h => Except.ok h.commit
    | none =>
      match btmGet dep.heads ("refs/tags/" ++ reference ++ "^\x7b\x7d") with
      | some h => Except.ok h.commit
      | none =>
        match btmGet dep.heads ("refs/tags/" ++ reference) with
        | some h => Except.ok h.commit
        | none => Except.error ()

/-- C6: resolution returns the commit id of the first match in the
order exact key, `refs/heads/` + name, peeled tag `refs/tags/` + name
+ `^\x7b\x7d`, then `refs/tags/` + name, and errors iff none of the
four forms is present. -/
theorem resolve_reference_order (dep : Dependency) (r : String) :
    (∀ h, btmGet dep.heads r = some h →
      resolveReference dep r = Except.ok h.commit)
    ∧ (∀ h, btmGet dep.heads r = none →
      btmGet dep.heads ("refs/heads/" ++ r) = some h →
      resolveReference dep r = Except.ok h.commit)
    ∧ (∀ h, btmGet dep.heads r = none →
      btmGet dep.heads ("refs/heads/" ++ r) = none →
      btmGet dep.heads ("refs/tags/" ++ r ++ "^\x7b\x7d") = some h →
      resolveReference dep r = Except.ok h.commit)
    ∧ (∀ h, btmGet dep.heads r = none →
      btmGet dep.heads ("refs/heads/" ++ r) = none →
      btmGet dep.heads ("refs/tags/" ++ r ++ "^\x7b\x7d") = none →
      btmGet dep.heads ("refs/tags/" ++ r) = some h →
      resolveReference dep r = Except.ok h.commit)
    ∧ (btmGet dep.heads r = none →
      btmGet dep.heads ("refs/heads/" ++ r) = none →
      btmGet dep.heads ("refs/tags/" ++ r ++ "^\x7b\x7d") = none →
      btmGet dep.heads ("refs/tags/" ++ r) = none →
      resolveReference dep r = Except.error ()) := by
  refine ⟨?_, ?_, ?_, ?_, ?_⟩
  · intro h h1
    simp only [resolveReference, h1]
  · intro h h1 h2
    simp only [resolveReference, h1, h2]
  · intro h h1 h2 h3
    simp only [resolveReference, h1, h2, h3]
  · intro h h1 h2 h3 h4
    simp only [resolveReference, h1, h2, h3, h4]
  · intro h1 h2 h3 h4
    simp only [resolveReference, h1, h2, h3, h4]

/-- The spec §8 example dependency: a branch `main` at X and a peeled
tag `v1` at Y. -/
def depR : Dependency :=
  { url := "r",
    heads := [("refs/heads/main", ⟨"X"⟩), ("refs/tags/v1^\x7b\x7d", ⟨"Y"⟩)] }

/-- Witness for C6: `main` resolves through the `refs/heads/` fallback
to X and `v1` resolves through the peeled-tag fallback to Y. -/
theorem resolve_reference_order_witness :
    resolveReference depR "main" = Except.ok "X"
      ∧ resolveReference depR "v1" = Except.ok "Y" :=
  ⟨(resolve_reference_order depR "main").2.1 ⟨"X"⟩ rfl rfl,
    (resolve_reference_order depR "v1").2.2.1 ⟨"Y"⟩ rfl rfl rfl⟩

/-! ### Initialization and the ledger bootstrap

`RepoRefs` is the repository's reference landscape as seen by
`ensure_initialized` (src/main.rs lines 99-157) and `Command::Init`
(lines 269-313): the local `paravendor` branch tip if any, the name of
the currently checked-out branch, the upstream remote each branch
tracks, the configured remotes in order, and the remote-tracking
branches with their tips. -/

structure RepoRefs where
  localBranch : Option Nat
  headBranch : Option String
  upstreamRemote : String → Option String
  remotes : List String
  remoteBranch : String → Option Nat

/-- The root commit `Init` creates when no remote copy is adopted:
no parents, a single `config` entry holding the default manifest. -/
def initRoot : GCommit :=
  { parents := [],
    tree := fun k => if k = "config" then some (encodeConfig Config.default)
      else none,
    message := "Initialize paravendor" }

inductive InitOutcome where
  | adopted (tip : Nat)
  | fresh (root : GCommit)

/-- `Command::Init` (src/main.rs lines 269-313): fails if the local
branch exists; otherwise, unless `ignore_remote` is set, adopts the
remote branch named exactly `origin/paravendor` when present; else
creates the fresh root commit. -/
def initCommand (r : RepoRefs) (ignoreRemote : Bool) :
    Except Unit InitOutcome :=
  match r.localBranch with
  | some _ => Except.error ()
  | none =>
    if !ignoreRemote then
      match r.remoteBranch ("origin" ++ "/paravendor") with
      | some tip => Except.ok (InitOutcome.adopted tip)
      | none => Except.ok (InitOutcome.fresh initRoot)
    else Except.ok (InitOutcome.fresh initRoot)

/-- The remote whose ledger copy `ensure_initialized` looks for: the
upstream remote of the checked-out branch, else the first configured
remote. -/
def resolvedRemote (r : RepoRefs) : Option String :=
  match r.headBranch.bind r.upstreamRemote with
  | some rem => some rem
  | none => r.remotes.head?

/-- `ensure_initialized` (src/main.rs lines 99-157), restricted to the
branch-discovery part: returns the tip the local `paravendor` branch
ends up at, or errors with the not-initialized message. -/
def ensureInitialized (r : RepoRefs) : Except Unit Nat :=
  match r.localBranch with
  | some tip => Except.ok tip
  | none =>
    match resolvedRemote r with
    | some rem =>
      match r.remoteBranch (rem ++ "/paravendor") with
      | some tip => Except.ok tip
      | none => Except.error ()
    | none => Except.error ()

/-- C7 counterexample: a repository with no local ledger branch, no
checked-out-branch upstream, and a single configured remote named
`upstream` holding a `paravendor` branch at tip 7.  The claim's
resolution order would adopt tip 7, but `Init` only ever consults
`origin/paravendor` and creates a fresh root instead. -/
def rCx : RepoRefs :=
  { localBranch := none,
    headBranch := none,
    upstreamRemote := fun _ => none,
    remotes := ["upstream"],
    remoteBranch := fun s => if s = "upstream/paravendor" then some 7
      else none }

theorem init_remote_counterexample :
    rCx.localBranch = none
      ∧ rCx.headBranch = none
      ∧ rCx.remotes.head? = some "upstream"
      ∧ rCx.remoteBranch "upstream/paravendor" = some 7
      ∧ initCommand rCx false = Except.ok (InitOutcome.fresh initRoot)
      ∧ initCommand rCx false ≠ Except.ok (InitOutcome.adopted 7) := by
  refine ⟨rfl, rfl, rfl, rfl, rfl, ?_⟩
  intro h
  rw [show initCommand rCx false = Except.ok (InitOutcome.fresh initRoot)
    from rfl] at h
  simp at h

/-- C7 corrected: when `Init` runs with no local ledger branch and
`ignore_remote` unset it consults only the remote branch literally
named `origin/paravendor` (not the checked-out branch's upstream remote
nor the first configured remote, which are used by
`ensure_initialized` for the other commands); if that branch exists the
local ledger branch adopts its tip, otherwise a fresh root commit with
the default manifest is created; with a local branch present it fails. -/
theorem init_origin_amended (r : RepoRefs) :
    (∀ t, r.localBranch = some t → initCommand r false = Except.error ())
    ∧ (r.localBranch = none → ∀ tip,
        r.remoteBranch "origin/paravendor" = some tip →
        initCommand r false = Except.ok (InitOutcome.adopted tip))
    ∧ (r.localBranch = none →
        r.remoteBranch "origin/paravendor" = none →
        initCommand r false = Except.ok (InitOutcome.fresh initRoot))
    ∧ (r.localBranch = none →
        initCommand r true = Except.ok (InitOutcome.fresh initRoot)) := by
  refine ⟨?_, ?_, ?_, ?_⟩
  · intro t ht
    simp only [initCommand, ht]
  · intro hl tip hr
    simp only [initCommand, hl, Bool.not_false, if_true]
    rw [show ("origin" ++ "/paravendor" : String) = "origin/paravendor"
      from rfl, hr]
  · intro hl hr
    simp only [initCommand, hl, Bool.not_false, if_true]
    rw [show ("origin" ++ "/paravendor" : String) = "origin/paravendor"
      from rfl, hr]
  · intro hl
    simp only [initCommand, hl, Bool.not_true, Bool.false_eq_true, if_false]

/-- Witness for C7 (corrected): at the concrete repository `rCx`,
`Init` ignores `upstream/paravendor` and creates the fresh root. -/
theorem init_origin_amended_witness :
    initCommand rCx false = Except.ok (InitOutcome.fresh initRoot) :=
  (init_origin_amended rCx).2.2.1 rfl rfl

/-- A repository with no local ledger branch whose checked-out branch
tracks a remote holding `paravendor` at tip 3. -/
def rEn : RepoRefs :=
  { localBranch := none,
    headBranch := some "refs/heads/master",
    upstreamRemote := fun b => if b = "refs/heads/master" then some "origin"
      else none,
    remotes := ["origin", "fork"],
    remoteBranch := fun s => if s = "origin/paravendor" then some 3
      else none }

/-- C10: for the non-`Init` commands, when no local ledger branch
exists, `ensure_initialized` resolves a remote (the checked-out
branch's upstream, else the first configured remote), silently creates
the local branch at that remote's `paravendor` tip and proceeds; the
not-initialized error is raised exactly when no local branch exists
and no such remote copy is found. -/
theorem ensure_initialized_spec (r : RepoRefs) :
    (∀ t, r.localBranch = some t → ensureInitialized r = Except.ok t)
    ∧ (r.localBranch = none → ∀ rem tip, resolvedRemote r = some rem →
        r.remoteBranch (rem ++ "/paravendor") = some tip →
        ensureInitialized r = Except.ok tip)
    ∧ (∀ b rem, r.headBranch = some b → r.upstreamRemote b = some rem →
        resolvedRemote r = some rem)
    ∧ (r.headBranch.bind r.upstreamRemote = none →
        resolvedRemote r = r.remotes.head?)
    ∧ (ensureInitialized r = Except.error () ↔
        r.localBranch = none ∧
        ∀ rem, resolvedRemote r = some rem →
          r.remoteBranch (rem ++ "/paravendor") = none) := by
  refine ⟨?_, ?_, ?_, ?_, ?_⟩
  · intro t ht
    simp only [ensureInitialized, ht]
  · intro hl rem tip hrem htip
    simp only [ensureInitialized, hl, hrem, htip]
  · intro b rem hb hrem
    simp only [resolvedRemote, hb, Option.some_bind, hrem]
  · intro hnone
    simp only [resolvedRemote, hnone]
  · constructor
    · intro herr
      cases hl : r.localBranch with
      | some t =>
        simp only [ensureInitialized, hl] at herr
        exact Except.noConfusion herr
      | none =>
        refine ⟨rfl, ?_⟩
        intro rem hrem
        cases htip : r.remoteBranch (rem ++ "/paravendor") with
        | some tip =>
          simp only [ensureInitialized, hl, hrem, htip] at herr
          exact Except.noConfusion herr
        | none => rfl
    · rintro ⟨hl, hall⟩
      simp only [ensureInitialized, hl]
      cases hrem : resolvedRemote r with
      | none => rfl
      | some rem => simp only [hall rem hrem]

/-- Witness for C10: at `rEn`, the upstream remote of the checked-out
branch is `origin`, so the ledger branch is adopted at tip 3 and the
command proceeds without the not-initialized error. -/
theorem ensure_initialized_spec_witness :
    ensureInitialized rEn = Except.ok 3 :=
  (ensure_initialized_spec rEn).2.1 rfl "origin" 3 rfl rfl

end Paravendor
